import Mathlib

/-!
Shallow embedding of the Morse audio synthesis and timing engine of the
morsewalker repository, together with proofs about its timing model,
tone scheduler, playback lock, QSB envelope and background-noise channel.

Times, durations and volumes are modelled as exact rationals (the source
computes them with ordinary arithmetic); the QSB envelope, which uses the
sine function, is modelled over the reals.
-/

namespace Morsewalker

/-- The attributes of a station profile used by `createMorsePlayer`'s timing
model.  `farnsworthSpeed` is `none` when absent on the station record. -/
structure Station where
  wpm : ℚ
  enableFarnsworth : Bool
  farnsworthSpeed : Option ℚ

/-- `station.farnsworthSpeed || station.wpm`: the fallback kicks in when the
field is absent or falsy (numeric `0`). -/
def farnsworthSpeedVal (s : Station) : ℚ :=
  match s.farnsworthSpeed with
  | none => s.wpm
  | some f => if f = 0 then s.wpm else f

/-- `CHAR_UNIT = 1.2 / station.wpm`. -/
def CHAR_UNIT (s : Station) : ℚ := 1.2 / s.wpm

/-- `FARNS_UNIT = 1.2 / farnsworthSpeed`. -/
def FARNS_UNIT (s : Station) : ℚ := 1.2 / farnsworthSpeedVal s

/-- `DOT_TIME = CHAR_UNIT`. -/
def DOT_TIME (s : Station) : ℚ := CHAR_UNIT s

/-- `DASH_TIME = CHAR_UNIT * 3`. -/
def DASH_TIME (s : Station) : ℚ := CHAR_UNIT s * 3

/-- `SYMBOL_SPACE = CHAR_UNIT`. -/
def SYMBOL_SPACE (s : Station) : ℚ := CHAR_UNIT s

/-- `LETTER_SPACE = enableFarnsworth ? FARNS_UNIT * 3 : CHAR_UNIT * 3`. -/
def LETTER_SPACE (s : Station) : ℚ :=
  if s.enableFarnsworth then FARNS_UNIT s * 3 else CHAR_UNIT s * 3

/-- `WORD_SPACE = enableFarnsworth ? FARNS_UNIT * 7 : CHAR_UNIT * 7`. -/
def WORD_SPACE (s : Station) : ℚ :=
  if s.enableFarnsworth then FARNS_UNIT s * 7 else CHAR_UNIT s * 7

/-- The `morseCodeMap` object literal: keys (lower case characters and
bracketed prosigns) paired with their Morse code strings. -/
def morseCodeMap : List (List Char × List Char) :=
  [ (['a'], ['.', '-'])
  , (['b'], ['-', '.', '.', '.'])
  , (['c'], ['-', '.', '-', '.'])
  , (['d'], ['-', '.', '.'])
  , (['e'], ['.'])
  , (['f'], ['.', '.', '-', '.'])
  , (['g'], ['-', '-', '.'])
  , (['h'], ['.', '.', '.', '.'])
  , (['i'], ['.', '.'])
  , (['j'], ['.', '-', '-', '-'])
  , (['k'], ['-', '.', '-'])
  , (['l'], ['.', '-', '.', '.'])
  , (['m'], ['-', '-'])
  , (['n'], ['-', '.'])
  , (['o'], ['-', '-', '-'])
  , (['p'], ['.', '-', '-', '.'])
  , (['q'], ['-', '-', '.', '-'])
  , (['r'], ['.', '-', '.'])
  , (['s'], ['.', '.', '.'])
  , (['t'], ['-'])
  , (['u'], ['.', '.', '-'])
  , (['v'], ['.', '.', '.', '-'])
  , (['w'], ['.', '-', '-'])
  , (['x'], ['-', '.', '.', '-'])
  , (['y'], ['-', '.', '-', '-'])
  , (['z'], ['-', '-', '.', '.'])
  , (['0'], ['-', '-', '-', '-', '-'])
  , (['1'], ['.', '-', '-', '-', '-'])
  , (['2'], ['.', '.', '-', '-', '-'])
  , (['3'], ['.', '.', '.', '-', '-'])
  , (['4'], ['.', '.', '.', '.', '-'])
  , (['5'], ['.', '.', '.', '.', '.'])
  , (['6'], ['-', '.', '.', '.', '.'])
  , (['7'], ['-', '-', '.', '.', '.'])
  , (['8'], ['-', '-', '-', '.', '.'])
  , (['9'], ['-', '-', '-', '-', '.'])
  , (['.'], ['.', '-', '.', '-', '.', '-'])
  , ([','], ['-', '-', '.', '.', '-', '-'])
  , (['?'], ['.', '.', '-', '-', '.', '.'])
  , (['/'], ['-', '.', '.', '-', '.'])
  , (['<', 'b', 'k', '>'], ['-', '.', '.', '.', '-', '.', '-'])
  , (['<', 'a', 'r', '>'], ['.', '-', '.', '-', '.'])
  , (['<', 's', 'k', '>'], ['.', '.', '.', '-', '.', '-'])
  , (['<', 'k', 'n', '>'], ['-', '.', '-', '-', '.'])
  , (['<', 'b', 't', '>'], ['-', '.', '.', '.', '-'])
  ]

/-- Property access `morseCodeMap[key]`: first matching key, `none` when the
key is absent (`undefined`). -/
def assocLookup (k : List Char) : List (List Char × List Char) → Option (List Char)
  | [] => none
  | kv :: rest => if k = kv.1 then some kv.2 else assocLookup k rest

/-- Splits a character list at the first occurrence of `target`
(`text.indexOf(target, i)` followed by the two `substring` calls): returns
the part before the first `target` and the part after it, or `none` when
`target` does not occur. -/
def splitAtChar (target : Char) : List Char → Option (List Char × List Char)
  | [] => none
  | c :: rest =>
    if c = target then some ([], rest)
    else
      match splitAtChar target rest with
      | none => none
      | some ps => some (c :: ps.1, ps.2)

/-- The loop body of `tokenize`, with explicit fuel (the loop consumes at
least one character per iteration, so `text.length` fuel suffices):
a `<` either opens a prosign token ending at the next `>` or, lacking a
closing `>`, stands for itself; every other character (spaces included) is
a one-character token. -/
def tokenizeFuel : Nat → List Char → List (List Char)
  | 0, _ => []
  | _ + 1, [] => []
  | n + 1, c :: rest =>
    if c = '<' then
      match splitAtChar '>' rest with
      | some ps => ('<' :: (ps.1 ++ ['>'])) :: tokenizeFuel n ps.2
      | none => ['<'] :: tokenizeFuel n rest
    else
      [c] :: tokenizeFuel n rest

/-- `tokenize(text)`. -/
def tokenize (text : List Char) : List (List Char) :=
  tokenizeFuel text.length text

/-- The scheduler state threaded through `playSymbol` / `playCode` /
`playToken` / `playSentence`: the running cursor `time` and the envelope
segments `(startTime, duration)` scheduled so far on the gain node. -/
structure SchedState where
  time : ℚ
  segs : List (ℚ × ℚ)

/-- `playSymbol(symbol, time)`: schedules one envelope of the symbol's
duration (`DASH_TIME` for `-`, `DOT_TIME` otherwise) starting at `time` and
returns `time + duration`. -/
def playSymbol (s : Station) (symbol : Char) (st : SchedState) : SchedState :=
  let duration := if symbol = '-' then DASH_TIME s else DOT_TIME s
  { time := st.time + duration, segs := st.segs ++ [(st.time, duration)] }

/-- One iteration of `playCode`'s loop: a dot or dash is played and followed
by `SYMBOL_SPACE`; any other character is skipped. -/
def playCodeStep (s : Station) (st : SchedState) (symbol : Char) : SchedState :=
  if symbol = '.' ∨ symbol = '-' then
    let st1 := playSymbol s symbol st
    { st1 with time := st1.time + SYMBOL_SPACE s }
  else st

/-- `playCode(code, time)`: plays every dot/dash of `code` with
`SYMBOL_SPACE` after each, then converts the final symbol space into a
letter space (`time += LETTER_SPACE - SYMBOL_SPACE`). -/
def playCode (s : Station) (code : List Char) (st : SchedState) : SchedState :=
  let st1 := code.foldl (playCodeStep s) st
  { st1 with time := st1.time + (LETTER_SPACE s - SYMBOL_SPACE s) }

/-- `playToken(token, time)`: a space converts the trailing letter space
into a word space; otherwise the token is looked up case-insensitively in
`morseCodeMap` and played when the lookup yields a non-empty (truthy) code,
and is skipped otherwise. -/
def playToken (s : Station) (token : List Char) (st : SchedState) : SchedState :=
  if token = [' '] then
    { st with time := st.time + (WORD_SPACE s - LETTER_SPACE s) }
  else
    match assocLookup (token.map Char.toLower) morseCodeMap with
    | some (c :: cs) => playCode s (c :: cs) st
    | _ => st

/-- `token` falls through to the `console.warn` branch of `playToken`: it is
not a space and its lookup yields no truthy Morse code. -/
def tokenUnrecognized (token : List Char) : Bool :=
  if token = [' '] then false
  else
    match assocLookup (token.map Char.toLower) morseCodeMap with
    | some (_ :: _) => false
    | _ => true

/-- `playSentence(sentence, startTime)`: tokenizes the sentence and plays
each token in order from `startTime`, returning the final cursor and the
scheduled segments. -/
def playSentence (s : Station) (sentence : List Char) (startTime : ℚ) : SchedState :=
  (tokenize sentence).foldl (fun st tok => playToken s tok st) ⟨startTime, []⟩

/-- `updateAudioLock(time)` acting on the module state `audioLockUntil`:
the lock only ever moves forward. -/
def updateAudioLock (time lock : ℚ) : ℚ :=
  if time > lock then time else lock

/-! ## QSB envelope (over the reals, since it uses the sine function) -/

/-- The QSB parameters captured by a player's closure: base `volume`,
`qsbDepth`, `qsbFrequency`, `stationStartTime` and `qsbPhaseOffset`,
together with the `qsb` enable flag. -/
structure QsbParams where
  volume : ℝ
  qsbDepth : ℝ
  qsbFrequency : ℝ
  stationStartTime : ℝ
  qsbPhaseOffset : ℝ
  qsb : Bool

/-- `qsbAmplitude(t)` as written in the source: when QSB is enabled the sine
argument is `2π(t - stationStartTime) + qsbPhaseOffset` — the configured
`qsbFrequency` does not appear in it. -/
noncomputable def qsbAmplitude (p : QsbParams) (t : ℝ) : ℝ :=
  if !p.qsb then p.volume
  else
    let sineValue := Real.sin (2 * Real.pi * (t - p.stationStartTime) + p.qsbPhaseOffset)
    let fadeFactor := (sineValue + 1) / 2
    let qsbFactor := 1 - p.qsbDepth * fadeFactor
    p.volume * qsbFactor

/-- The amplitude formula stated by the specification (and by the source's
own doc comment on `qsbAmplitude`), with `qsbFrequency` as a true multiplier
inside the sine argument. -/
noncomputable def qsbAmplitudeSpec (p : QsbParams) (t : ℝ) : ℝ :=
  p.volume *
    (1 - p.qsbDepth *
      ((Real.sin (2 * Real.pi * p.qsbFrequency * (t - p.stationStartTime)
          + p.qsbPhaseOffset) + 1) / 2))

/-! ## Background noise channel -/

/-- The QRN level selected on the form (`inputs.qrn`). -/
inductive Qrn
  | off
  | normal
  | moderate
  | heavy
deriving DecidableEq

/-- The `staticGainValues` table, with the `|| 1.0` fallback for a level
absent from it. -/
def staticGainValues : Qrn → ℚ
  | .normal => 0.75
  | .moderate => 1.5
  | .heavy => 3.0
  | .off => 1.0

/-- The module-level state the background-static functions read and write:
whether `backgroundStaticSource` and `staticGain` are non-null, the static
gain value, the playback lock `audioLockUntil`, the audio context clock, and
the validated inputs (`null`ness and selected QRN level). -/
structure NoiseState where
  backgroundStaticSource : Bool
  staticGain : Bool
  staticGainValue : ℚ
  audioLockUntil : ℚ
  audioCtxTime : ℚ
  inputsValid : Bool
  qrn : Qrn

/-- `createBackgroundStatic()` (with the asynchronous fetch/decode collapsed
to its outcome `loadOk`): a no-op when a static track already plays, when
the inputs are invalid, when QRN is `off`, or when loading fails; otherwise
it installs the looping source and its gain node.  It never touches
`audioLockUntil`. -/
def createBackgroundStatic (loadOk : Bool) (s : NoiseState) : NoiseState :=
  if s.backgroundStaticSource then s
  else if !s.inputsValid then s
  else if s.qrn = Qrn.off then s
  else if loadOk then
    { s with backgroundStaticSource := true, staticGain := true,
             staticGainValue := staticGainValues s.qrn }
  else s

/-- `stopBackgroundStatic(noFade)`: when a source is playing and a gain node
exists, the gain is ramped to zero over `fadeTime` (`0` when `noFade`, else
`1` second) and `updateAudioLock(audioContext.currentTime + fadeTime)` is
called; the source and gain are then released (immediately, or after the
fade via `setTimeout`, with the same final state). -/
def stopBackgroundStatic (noFade : Bool) (s : NoiseState) : NoiseState :=
  if s.backgroundStaticSource then
    let fadeTime : ℚ := if noFade then 0 else 1
    let s1 :=
      if s.staticGain then
        { s with staticGainValue := 0,
                 audioLockUntil :=
                   updateAudioLock (s.audioCtxTime + fadeTime) s.audioLockUntil }
      else s
    { s1 with backgroundStaticSource := false, staticGain := false }
  else s

/-- `isBackgroundStaticPlaying()`. -/
def isBackgroundStaticPlaying (s : NoiseState) : Bool :=
  s.backgroundStaticSource

/-- `updateStaticIntensity()`: when static is playing, stop it without a
fade and recreate it with the current settings. -/
def updateStaticIntensity (loadOk : Bool) (s : NoiseState) : NoiseState :=
  if isBackgroundStaticPlaying s then
    createBackgroundStatic loadOk (stopBackgroundStatic true s)
  else s

/-! ## `normalizeStationGain` (util.js) -/

/-- Line 16 of the player: `volume = volumeOverride !== null ? volumeOverride
: station.volume`. -/
def playerVolume (stationVolume : ℚ) (volumeOverride : Option ℚ) : ℚ :=
  match volumeOverride with
  | some v => v
  | none => stationVolume

/-- The scaling factor of `normalizeStationGain`: `1/totalVolume` when the
configured volumes sum to more than `1`, else `1`. -/
def scalingFactor (volumes : List ℚ) : ℚ :=
  if volumes.sum > 1 then 1 / volumes.sum else 1

/-- `normalizeStationGain(stations)` restricted to the volumes: each station
gets a player created with `volumeOverride = volume * scalingFactor`, so its
effective player volume is that product. -/
def normalizeStationGain (volumes : List ℚ) : List ℚ :=
  volumes.map (fun v => playerVolume v (some (v * scalingFactor volumes)))

/-! ## Reference definitions taken from the specification's words -/

/-- The specification's letter/word spacing unit `u`: `1.2/farnsworthWpm`
when Farnsworth is enabled and `1.2/wpm` otherwise, with `farnsworthWpm`
defaulting to `wpm` when absent. -/
def specUnit (s : Station) : ℚ :=
  if s.enableFarnsworth then 1.2 / (s.farnsworthSpeed.getD s.wpm) else 1.2 / s.wpm

/-! ## Segment ordering invariants -/

/-- End time of a scheduled `(startTime, duration)` segment. -/
def segEnd (p : ℚ × ℚ) : ℚ := p.1 + p.2

/-- The scheduler invariant at token boundaries: the cursor never went below
the sentence start `t0`, the scheduled segments are pairwise strictly
ordered and non-overlapping, and every segment lies in `[t0, cursor)`. -/
def SegInv (t0 : ℚ) (st : SchedState) : Prop :=
  t0 ≤ st.time ∧
  List.Pairwise (fun a b => segEnd a < b.1) st.segs ∧
  ∀ p ∈ st.segs, t0 ≤ p.1 ∧ 0 < p.2 ∧ segEnd p < st.time

/-- The strengthened invariant holding inside `playCode`'s loop once at
least one symbol has been played: every segment ends at least a full
`SYMBOL_SPACE` before the cursor. -/
def MarginInv (s : Station) (t0 : ℚ) (st : SchedState) : Prop :=
  t0 ≤ st.time ∧
  List.Pairwise (fun a b => segEnd a < b.1) st.segs ∧
  ∀ p ∈ st.segs, t0 ≤ p.1 ∧ 0 < p.2 ∧ segEnd p ≤ st.time - SYMBOL_SPACE s

/-! ## Concrete instances used by witnesses and counterexamples -/

/-- A 20 wpm station without Farnsworth timing. -/
def stPlain : Station := ⟨20, false, none⟩

/-- A 20 wpm station with Farnsworth spacing at 10 wpm. -/
def stFarns : Station := ⟨20, true, some 10⟩

/-- QSB parameters exhibiting the missing `qsbFrequency` multiplier:
full depth, 2 Hz fading, zero phase offset, session started at `t = 0`. -/
def pQsbBug : QsbParams :=
  { volume := 1, qsbDepth := 1, qsbFrequency := 2,
    stationStartTime := 0, qsbPhaseOffset := 0, qsb := true }

/-- A noise-channel state with static playing, lock clear and the clock at
5 seconds. -/
def cxNoise : NoiseState :=
  { backgroundStaticSource := true, staticGain := true, staticGainValue := 1,
    audioLockUntil := 0, audioCtxTime := 5, inputsValid := true, qrn := Qrn.normal }

/-! ## Helper lemmas -/

/-- A token on which `tokenUnrecognized` holds is skipped by `playToken`
with the cursor and the scheduled segments unchanged. -/
theorem playToken_unrec (s : Station) (st : SchedState) (tok : List Char)
    (h : tokenUnrecognized tok = true) : playToken s tok st = st := by
  by_cases hsp : tok = [' ']
  · simp [tokenUnrecognized, hsp] at h
  · rcases hl : assocLookup (tok.map Char.toLower) morseCodeMap with _ | code
    · simp [playToken, hsp, hl]
    · rcases code with _ | ⟨c, cs⟩
      · simp [playToken, hsp, hl]
      · simp [tokenUnrecognized, hsp, hl] at h

/-- Claim C3: with `wpm = 20` and Farnsworth disabled, scheduling the
sentence `E` from time `10` ends at exactly `10.24` seconds. -/
theorem playSentence_E_at_20wpm :
    (playSentence stPlain ['E'] 10).time = 10.24 := by
  simp +decide [playSentence, tokenize, tokenizeFuel, splitAtChar, playToken, assocLookup,
    morseCodeMap, playCode, playCodeStep, playSymbol, DOT_TIME, DASH_TIME, SYMBOL_SPACE,
    LETTER_SPACE, CHAR_UNIT, FARNS_UNIT, farnsworthSpeedVal, stPlain]
  norm_num

/-- Claim C4: for every station with `wpm ≥ 1` and any Farnsworth setting
(with a Farnsworth speed of at least 1 when one is present), the created
player's timing constants equal the reference definitions: dot `1.2/wpm`,
dash `3·(1.2/wpm)`, intra-symbol space `1.2/wpm`, inter-letter space `3u`
and inter-word space `7u` with `u = specUnit`. -/
theorem timing_constants_eq_spec (s : Station) (hw : 1 ≤ s.wpm)
    (hf : s.farnsworthSpeed = none ∨ ∃ f, s.farnsworthSpeed = some f ∧ 1 ≤ f) :
    DOT_TIME s = 1.2 / s.wpm ∧ DASH_TIME s = 3 * (1.2 / s.wpm) ∧
    SYMBOL_SPACE s = 1.2 / s.wpm ∧ LETTER_SPACE s = 3 * specUnit s ∧
    WORD_SPACE s = 7 * specUnit s := by
  have hval : farnsworthSpeedVal s = s.farnsworthSpeed.getD s.wpm := by
    rcases hf with h | ⟨f, hf1, hf2⟩
    · simp [farnsworthSpeedVal, h]
    · have : f ≠ 0 := by intro h0; rw [h0] at hf2; norm_num at hf2
      simp [farnsworthSpeedVal, hf1, this]
  refine ⟨rfl, ?_, rfl, ?_, ?_⟩
  · unfold DASH_TIME CHAR_UNIT; ring
  · unfold LETTER_SPACE specUnit FARNS_UNIT CHAR_UNIT
    rw [hval]
    split <;> ring
  · unfold WORD_SPACE specUnit FARNS_UNIT CHAR_UNIT
    rw [hval]
    split <;> ring

/-- Witness for claim C4 at the Farnsworth station `⟨20, true, some 10⟩`. -/
theorem timing_constants_eq_spec_witness :
    DOT_TIME stFarns = 1.2 / stFarns.wpm ∧ DASH_TIME stFarns = 3 * (1.2 / stFarns.wpm) ∧
    SYMBOL_SPACE stFarns = 1.2 / stFarns.wpm ∧ LETTER_SPACE stFarns = 3 * specUnit stFarns ∧
    WORD_SPACE stFarns = 7 * specUnit stFarns :=
  timing_constants_eq_spec stFarns (by norm_num [stFarns])
    (Or.inr ⟨10, rfl, by norm_num⟩)

/-- Claim C5: with Farnsworth enabled and `1 ≤ farnsworthSpeed < wpm`, the
inter-letter and inter-word spaces strictly exceed the non-Farnsworth
values `3·(1.2/wpm)` and `7·(1.2/wpm)`, while dot, dash and intra-symbol
space coincide with their values on the same station with Farnsworth
disabled. -/
theorem farnsworth_stretches_gaps (s : Station) (he : s.enableFarnsworth = true)
    (hf : ∃ f, s.farnsworthSpeed = some f ∧ 1 ≤ f ∧ f < s.wpm) :
    3 * (1.2 / s.wpm) < LETTER_SPACE s ∧ 7 * (1.2 / s.wpm) < WORD_SPACE s ∧
    DOT_TIME s = DOT_TIME { s with enableFarnsworth := false } ∧
    DASH_TIME s = DASH_TIME { s with enableFarnsworth := false } ∧
    SYMBOL_SPACE s = SYMBOL_SPACE { s with enableFarnsworth := false } ∧
    LETTER_SPACE { s with enableFarnsworth := false } = 3 * (1.2 / s.wpm) ∧
    WORD_SPACE { s with enableFarnsworth := false } = 7 * (1.2 / s.wpm) := by
  rcases hf with ⟨f, hfs, hf1, hflt⟩
  have hfpos : 0 < f := lt_of_lt_of_le one_pos hf1
  have hwpos : 0 < s.wpm := lt_trans hfpos hflt
  have hval : farnsworthSpeedVal s = f := by
    have : f ≠ 0 := ne_of_gt hfpos
    simp [farnsworthSpeedVal, hfs, this]
  have hunit : 1.2 / s.wpm < FARNS_UNIT s := by
    unfold FARNS_UNIT
    rw [hval, div_lt_div_iff₀ hwpos hfpos]
    nlinarith
  refine ⟨?_, ?_, rfl, rfl, rfl, ?_, ?_⟩
  · unfold LETTER_SPACE
    rw [if_pos he]
    nlinarith [hunit]
  · unfold WORD_SPACE
    rw [if_pos he]
    nlinarith [hunit]
  · simp [LETTER_SPACE, CHAR_UNIT]; ring
  · simp [WORD_SPACE, CHAR_UNIT]; ring

/-- Witness for claim C5 at the station `⟨20, true, some 10⟩`. -/
theorem farnsworth_stretches_gaps_witness :
    3 * (1.2 / stFarns.wpm) < LETTER_SPACE stFarns ∧
    7 * (1.2 / stFarns.wpm) < WORD_SPACE stFarns ∧
    DOT_TIME stFarns = DOT_TIME { stFarns with enableFarnsworth := false } ∧
    DASH_TIME stFarns = DASH_TIME { stFarns with enableFarnsworth := false } ∧
    SYMBOL_SPACE stFarns = SYMBOL_SPACE { stFarns with enableFarnsworth := false } ∧
    LETTER_SPACE { stFarns with enableFarnsworth := false } = 3 * (1.2 / stFarns.wpm) ∧
    WORD_SPACE { stFarns with enableFarnsworth := false } = 7 * (1.2 / stFarns.wpm) :=
  farnsworth_stretches_gaps stFarns rfl ⟨10, rfl, by norm_num, by norm_num [stFarns]⟩

/-- Claim C6: `<AR>TEST` tokenizes to the prosign followed by the four
letters; `<ARTEST` (no closing bracket) tokenizes to a literal `<` followed
by the letters; the `<` token is reported unrecognized and skipped with the
cursor and segments unchanged, and scheduling `<ARTEST` produces exactly
the schedule of `ARTEST`. -/
theorem tokenize_prosign_cases :
    tokenize ['<', 'A', 'R', '>', 'T', 'E', 'S', 'T'] =
      [['<', 'A', 'R', '>'], ['T'], ['E'], ['S'], ['T']] ∧
    tokenize ['<', 'A', 'R', 'T', 'E', 'S', 'T'] =
      [['<'], ['A'], ['R'], ['T'], ['E'], ['S'], ['T']] ∧
    tokenUnrecognized ['<'] = true ∧
    (∀ (s : Station) (st : SchedState), playToken s ['<'] st = st) ∧
    ∀ (s : Station) (t0 : ℚ),
      playSentence s ['<', 'A', 'R', 'T', 'E', 'S', 'T'] t0 =
        playSentence s ['A', 'R', 'T', 'E', 'S', 'T'] t0 := by
  have hskip : ∀ (s : Station) (st : SchedState), playToken s ['<'] st = st :=
    fun s st => playToken_unrec s st ['<'] (by decide)
  refine ⟨by decide, by decide, by decide, hskip, ?_⟩
  intro s t0
  have h1 : tokenize ['<', 'A', 'R', 'T', 'E', 'S', 'T'] =
      ['<'] :: tokenize ['A', 'R', 'T', 'E', 'S', 'T'] := by decide
  rw [playSentence, playSentence, h1, List.foldl_cons, hskip]

/-- Claim C8: `updateAudioLock` computes `max` of the lock and its argument
(hence a call with a smaller value leaves the lock unchanged), and across
any sequence of calls the lock never decreases. -/
theorem updateAudioLock_max_monotone :
    (∀ time lock : ℚ, updateAudioLock time lock = max lock time) ∧
    ∀ (times : List ℚ) (lock : ℚ),
      lock ≤ times.foldl (fun acc t => updateAudioLock t acc) lock := by
  have hmax : ∀ time lock : ℚ, updateAudioLock time lock = max lock time := by
    intro t l
    unfold updateAudioLock
    rcases lt_trichotomy l t with h | h | h
    · rw [if_pos h, max_eq_right (le_of_lt h)]
    · rw [h, if_neg (lt_irrefl t), max_self]
    · rw [if_neg (not_lt_of_gt h), max_eq_left (le_of_lt h)]
  refine ⟨hmax, ?_⟩
  intro ts
  induction ts with
  | nil => intro l; exact le_refl l
  | cons t ts ih =>
    intro l
    rw [List.foldl_cons]
    exact le_trans (by rw [hmax]; exact le_max_left l t) (ih (updateAudioLock t l))

/-- Claim C9: `normalizeStationGain` scales every configured volume by
`1/total` when the volumes sum to more than `1` and leaves every volume
unchanged otherwise. -/
theorem normalizeStationGain_spec :
    ∀ volumes : List ℚ, normalizeStationGain volumes =
      if 1 < volumes.sum then volumes.map (fun v => v * (1 / volumes.sum))
      else volumes := by
  intro vs
  by_cases h : 1 < vs.sum
  · simp [normalizeStationGain, playerVolume, scalingFactor, h]
  · simp [normalizeStationGain, playerVolume, scalingFactor, h]

/-- A successful `splitAtChar` decomposes its input around the first
occurrence of the target character. -/
theorem splitAtChar_eq_append {t : Char} :
    ∀ {l p s2 : List Char}, splitAtChar t l = some (p, s2) → l = p ++ t :: s2 := by
  intro l
  induction l with
  | nil => intro p s2 h; simp [splitAtChar] at h
  | cons c rest ih =>
    intro p s2 h
    by_cases hc : c = t
    · rw [splitAtChar, if_pos hc] at h
      obtain ⟨hp, hs⟩ := Prod.mk.injEq .. ▸ Option.some.injEq .. ▸ h
      subst hc
      simp [← hp, ← hs]
    · rw [splitAtChar, if_neg hc] at h
      rcases hps : splitAtChar t rest with _ | ps
      · rw [hps] at h; exact absurd h (by simp)
      · rw [hps] at h
        obtain ⟨hp, hs⟩ := Prod.mk.injEq .. ▸ Option.some.injEq .. ▸ h
        have := ih hps
        rw [← hp, ← hs]
        simp [this]

/-- With enough fuel (at least the input length), `tokenizeFuel` loses no
characters: its tokens concatenate back to the input. -/
theorem tokenizeFuel_flatten :
    ∀ (n : Nat) (l : List Char), l.length ≤ n → (tokenizeFuel n l).flatten = l := by
  intro n
  induction n with
  | zero =>
    intro l h
    have : l = [] := List.length_eq_zero.mp (Nat.le_zero.mp h)
    subst this
    rfl
  | succ n ih =>
    intro l h
    cases l with
    | nil => rfl
    | cons c rest =>
      have hrest : rest.length ≤ n := by simpa using h
      by_cases hc : c = '<'
      · rw [tokenizeFuel, if_pos hc]
        rcases hs : splitAtChar '>' rest with _ | ps
        · simp [List.flatten, ih rest hrest, hc]
        · have hdec := splitAtChar_eq_append hs
          have hlen : ps.2.length ≤ n := by
            have : rest.length = ps.1.length + (ps.2.length + 1) := by
              rw [hdec]; simp
            omega
          simp [List.flatten, ih ps.2 hlen, hc, hdec]
      · rw [tokenizeFuel, if_neg hc]
        simp [List.flatten, ih rest hrest]

/-- Claim C10: tokenization is lossless — concatenating the tokens of any
input reproduces the input exactly. -/
theorem tokenize_flatten :
    ∀ text : List Char, (tokenize text).flatten = text :=
  fun text => tokenizeFuel_flatten text.length text (le_refl _)

/-- Claim C1 (divergence): at full depth, 2 Hz fading rate, zero phase and
`t - t0 = 1/4`, the source's `qsbAmplitude` returns `0` (its sine argument
`2π(t - t0)` reaches `π/2`) while the documented formula with the
`qsbFrequency` multiplier (sine argument `2π·2·(t - t0) = π`) gives `1/2`;
the two disagree. -/
theorem qsbAmplitude_ne_spec :
    qsbAmplitude pQsbBug (1 / 4) = 0 ∧
    qsbAmplitudeSpec pQsbBug (1 / 4) = 1 / 2 ∧
    qsbAmplitude pQsbBug (1 / 4) ≠ qsbAmplitudeSpec pQsbBug (1 / 4) := by
  have harg1 : 2 * Real.pi * ((1 / 4 : ℝ) - 0) + 0 = Real.pi / 2 := by ring
  have harg2 : 2 * Real.pi * (2 : ℝ) * ((1 / 4 : ℝ) - 0) + 0 = Real.pi := by ring
  have h1 : qsbAmplitude pQsbBug (1 / 4) = 0 := by
    simp only [qsbAmplitude, pQsbBug]
    rw [harg1, Real.sin_pi_div_two]
    norm_num
  have h2 : qsbAmplitudeSpec pQsbBug (1 / 4) = 1 / 2 := by
    simp only [qsbAmplitudeSpec, pQsbBug]
    rw [harg2, Real.sin_pi]
    norm_num
  exact ⟨h1, h2, by rw [h1, h2]; norm_num⟩

/-- Claim C2 (counterexample): stopping the background static with a fade,
from a state with an active source and gain, lock `0` and clock `5`,
changes `audioLockUntil` (to `6`). -/
theorem stopBackgroundStatic_changes_lock :
    (stopBackgroundStatic false cxNoise).audioLockUntil ≠ cxNoise.audioLockUntil := by
  simp [stopBackgroundStatic, cxNoise, updateAudioLock]
  norm_num

/-- Claim C2 as amended: `createBackgroundStatic` never changes the lock;
`stopBackgroundStatic` leaves the lock unchanged unless a static source and
gain node are active, in which case it advances it by
`updateAudioLock(currentTime + fadeTime)` with `fadeTime = 0` when `noFade`
and `1` otherwise; `updateStaticIntensity` correspondingly advances it by
`updateAudioLock(currentTime)` exactly when static is playing with a gain
node. -/
theorem noiseChannel_lock_effect :
    ∀ (s : NoiseState) (loadOk noFade : Bool),
      (createBackgroundStatic loadOk s).audioLockUntil = s.audioLockUntil ∧
      (stopBackgroundStatic noFade s).audioLockUntil =
        (if s.backgroundStaticSource && s.staticGain then
          updateAudioLock (s.audioCtxTime + if noFade then 0 else 1) s.audioLockUntil
        else s.audioLockUntil) ∧
      (updateStaticIntensity loadOk s).audioLockUntil =
        (if s.backgroundStaticSource && s.staticGain then
          updateAudioLock s.audioCtxTime s.audioLockUntil
        else s.audioLockUntil) := by
  intro s loadOk noFade
  have hcreate : ∀ (ok : Bool) (s2 : NoiseState),
      (createBackgroundStatic ok s2).audioLockUntil = s2.audioLockUntil := by
    intro ok s2
    unfold createBackgroundStatic
    split_ifs <;> rfl
  have hstop : ∀ (nf : Bool) (s2 : NoiseState),
      (stopBackgroundStatic nf s2).audioLockUntil =
        (if s2.backgroundStaticSource && s2.staticGain then
          updateAudioLock (s2.audioCtxTime + if nf then 0 else 1) s2.audioLockUntil
        else s2.audioLockUntil) := by
    intro nf s2
    unfold stopBackgroundStatic
    rcases hsrc : s2.backgroundStaticSource <;> rcases hg : s2.staticGain <;>
      simp [hsrc, hg]
  refine ⟨hcreate loadOk s, hstop noFade s, ?_⟩
  unfold updateStaticIntensity isBackgroundStaticPlaying
  rcases hsrc : s.backgroundStaticSource with _ | _
  · simp [hsrc]
  · rw [if_pos rfl, hcreate, hstop]
    rcases hg : s.staticGain with _ | _
    · simp [stopBackgroundStatic, hsrc, hg]
    · simp [stopBackgroundStatic, hsrc, hg]

/-- A station speed of at least 1 wpm makes the character unit positive. -/
theorem CHAR_UNIT_pos (s : Station) (hw : 1 ≤ s.wpm) : 0 < CHAR_UNIT s := by
  unfold CHAR_UNIT
  exact div_pos (by norm_num) (by linarith)

/-- A Farnsworth speed of at least 1 wpm makes the Farnsworth unit positive. -/
theorem FARNS_UNIT_pos (s : Station) (hf : 1 ≤ farnsworthSpeedVal s) :
    0 < FARNS_UNIT s := by
  unfold FARNS_UNIT
  exact div_pos (by norm_num) (by linarith)

/-- The intra-symbol space is positive for speeds of at least 1 wpm. -/
theorem SYMBOL_SPACE_pos (s : Station) (hw : 1 ≤ s.wpm) : 0 < SYMBOL_SPACE s :=
  CHAR_UNIT_pos s hw

/-- The inter-letter space is positive. -/
theorem LETTER_SPACE_pos (s : Station) (hw : 1 ≤ s.wpm)
    (hf : 1 ≤ farnsworthSpeedVal s) : 0 < LETTER_SPACE s := by
  unfold LETTER_SPACE
  by_cases he : s.enableFarnsworth
  · rw [if_pos he]
    exact mul_pos (FARNS_UNIT_pos s hf) (by norm_num)
  · rw [if_neg he]
    exact mul_pos (CHAR_UNIT_pos s hw) (by norm_num)

/-- The word-gap conversion `WORD_SPACE - LETTER_SPACE` is positive. -/
theorem wordGap_pos (s : Station) (hw : 1 ≤ s.wpm)
    (hf : 1 ≤ farnsworthSpeedVal s) : 0 < WORD_SPACE s - LETTER_SPACE s := by
  unfold WORD_SPACE LETTER_SPACE
  by_cases he : s.enableFarnsworth
  · rw [if_pos he, if_pos he]
    have := FARNS_UNIT_pos s hf
    linarith
  · rw [if_neg he, if_neg he]
    have := CHAR_UNIT_pos s hw
    linarith

/-- On a dot or dash, one `playCode` loop iteration appends the segment
`(cursor, duration)` and advances the cursor by the symbol duration plus
`SYMBOL_SPACE`. -/
theorem playCodeStep_symbol (s : Station) (st : SchedState) (c : Char)
    (hc : c = '.' ∨ c = '-') :
    playCodeStep s st c =
      { time := st.time + ((if c = '-' then DASH_TIME s else DOT_TIME s) + SYMBOL_SPACE s),
        segs := st.segs ++ [(st.time, if c = '-' then DASH_TIME s else DOT_TIME s)] } := by
  unfold playCodeStep playSymbol
  rw [if_pos hc]
  simp [add_assoc]

/-- The symbol duration is at least a dot and positive. -/
theorem symbolDuration_bounds (s : Station) (c : Char) (hw : 1 ≤ s.wpm) :
    DOT_TIME s ≤ (if c = '-' then DASH_TIME s else DOT_TIME s) ∧
    0 < (if c = '-' then DASH_TIME s else DOT_TIME s) := by
  have hcu := CHAR_UNIT_pos s hw
  by_cases hc : c = '-'
  · rw [if_pos hc]
    unfold DASH_TIME DOT_TIME
    exact ⟨by linarith, by linarith⟩
  · rw [if_neg hc]
    exact ⟨le_refl _, hcu⟩

/-- One `playCode` loop iteration preserves the strengthened margin
invariant and never moves the cursor backward. -/
theorem playCodeStep_preserves_margin (s : Station) (t0 : ℚ) (hw : 1 ≤ s.wpm)
    (st : SchedState) (c : Char) (h : MarginInv s t0 st) :
    MarginInv s t0 (playCodeStep s st c) ∧ st.time ≤ (playCodeStep s st c).time := by
  by_cases hc : c = '.' ∨ c = '-'
  · rw [playCodeStep_symbol s st c hc]
    obtain ⟨hdot, hdur⟩ := symbolDuration_bounds s c hw
    have hss := SYMBOL_SPACE_pos s hw
    obtain ⟨h1, h2, h3⟩ := h
    refine ⟨⟨by dsimp; linarith, ?_, ?_⟩, by dsimp; linarith⟩
    · dsimp
      rw [List.pairwise_append]
      refine ⟨h2, List.pairwise_singleton _ _, ?_⟩
      intro a ha b hb
      rw [List.mem_singleton] at hb
      subst hb
      have := (h3 a ha).2.2
      dsimp
      linarith
    · intro p hp
      dsimp at hp
      rcases List.mem_append.mp hp with hold | hnew
      · obtain ⟨hp1, hp2, hp3⟩ := h3 p hold
        exact ⟨hp1, hp2, by dsimp; linarith⟩
      · rw [List.mem_singleton] at hnew
        subst hnew
        exact ⟨h1, hdur, by simp [segEnd]; linarith⟩
  · unfold playCodeStep
    rw [if_neg hc]
    exact ⟨h, le_refl _⟩

/-- On a dot or dash, one `playCode` loop iteration turns the token-boundary
invariant into the strengthened margin invariant and advances the cursor by
at least a dot plus a symbol space. -/
theorem playCodeStep_establishes_margin (s : Station) (t0 : ℚ) (hw : 1 ≤ s.wpm)
    (st : SchedState) (c : Char) (hc : c = '.' ∨ c = '-') (h : SegInv t0 st) :
    MarginInv s t0 (playCodeStep s st c) ∧
    st.time + DOT_TIME s + SYMBOL_SPACE s ≤ (playCodeStep s st c).time := by
  rw [playCodeStep_symbol s st c hc]
  obtain ⟨hdot, hdur⟩ := symbolDuration_bounds s c hw
  have hss := SYMBOL_SPACE_pos s hw
  obtain ⟨h1, h2, h3⟩ := h
  refine ⟨⟨by dsimp; linarith, ?_, ?_⟩, by dsimp; linarith⟩
  · dsimp
    rw [List.pairwise_append]
    refine ⟨h2, List.pairwise_singleton _ _, ?_⟩
    intro a ha b hb
    rw [List.mem_singleton] at hb
    subst hb
    have := (h3 a ha).2.2
    dsimp
    linarith
  · intro p hp
    dsimp at hp
    rcases List.mem_append.mp hp with hold | hnew
    · obtain ⟨hp1, hp2, hp3⟩ := h3 p hold
      exact ⟨hp1, hp2, by dsimp; linarith⟩
    · rw [List.mem_singleton] at hnew
      subst hnew
      exact ⟨h1, hdur, by simp [segEnd]; linarith⟩

/-- Folding `playCode`'s loop over any character list preserves the margin
invariant and never moves the cursor backward. -/
theorem foldl_playCodeStep_margin (s : Station) (t0 : ℚ) (hw : 1 ≤ s.wpm) :
    ∀ (code : List Char) (st : SchedState), MarginInv s t0 st →
      MarginInv s t0 (code.foldl (playCodeStep s) st) ∧
      st.time ≤ (code.foldl (playCodeStep s) st).time := by
  intro code
  induction code with
  | nil => intro st h; exact ⟨h, le_refl _⟩
  | cons c cs ih =>
    intro st h
    rw [List.foldl_cons]
    obtain ⟨hm, ht⟩ := playCodeStep_preserves_margin s t0 hw st c h
    obtain ⟨hm2, ht2⟩ := ih _ hm
    exact ⟨hm2, le_trans ht ht2⟩

/-- `playCode` on a code starting with a dot or dash preserves the
token-boundary invariant and moves the cursor strictly forward. -/
theorem playCode_preserves_inv (s : Station) (t0 : ℚ) (hw : 1 ≤ s.wpm)
    (hf : 1 ≤ farnsworthSpeedVal s) (c : Char) (cs : List Char)
    (hc : c = '.' ∨ c = '-') (st : SchedState) (h : SegInv t0 st) :
    SegInv t0 (playCode s (c :: cs) st) ∧ st.time ≤ (playCode s (c :: cs) st).time := by
  unfold playCode
  rw [List.foldl_cons]
  obtain ⟨hm1, ht1⟩ := playCodeStep_establishes_margin s t0 hw st c hc h
  obtain ⟨hm2, ht2⟩ := foldl_playCodeStep_margin s t0 hw cs _ hm1
  have hLS := LETTER_SPACE_pos s hw hf
  have hSS := SYMBOL_SPACE_pos s hw
  have hDOT := CHAR_UNIT_pos s hw
  obtain ⟨h1, h2, h3⟩ := hm2
  have ht0 := h.1
  have hDOTle : st.time + DOT_TIME s + SYMBOL_SPACE s ≤
      (cs.foldl (playCodeStep s) (playCodeStep s st c)).time := le_trans ht1 ht2
  refine ⟨⟨by dsimp; unfold DOT_TIME at hDOTle; linarith, h2, ?_⟩, by dsimp; unfold DOT_TIME at hDOTle; linarith⟩
  intro p hp
  dsimp at hp
  obtain ⟨hp1, hp2, hp3⟩ := h3 p hp
  exact ⟨hp1, hp2, by dsimp; linarith⟩

/-- A successful association lookup finds one of the list's entries. -/
theorem assocLookup_mem :
    ∀ (m : List (List Char × List Char)) (k v : List Char),
      assocLookup k m = some v → (k, v) ∈ m := by
  intro m
  induction m with
  | nil => intro k v h; simp [assocLookup] at h
  | cons kv rest ih =>
    intro k v h
    rw [assocLookup] at h
    by_cases hk : k = kv.1
    · rw [if_pos hk] at h
      have hv : kv.2 = v := Option.some.inj h
      obtain ⟨k1, v1⟩ := kv
      dsimp at hk hv
      subst hk
      subst hv
      exact List.mem_cons_self _ _
    · rw [if_neg hk] at h
      exact List.mem_cons_of_mem _ (ih k v h)

/-- Every Morse code string in the map is non-empty and consists only of
dots and dashes. -/
theorem morseCodeMap_codes :
    ∀ kv ∈ morseCodeMap, kv.2 ≠ [] ∧ ∀ c ∈ kv.2, c = '.' ∨ c = '-' := by decide

/-- `playToken` preserves the token-boundary invariant and never moves the
cursor backward. -/
theorem playToken_preserves_inv (s : Station) (t0 : ℚ) (hw : 1 ≤ s.wpm)
    (hf : 1 ≤ farnsworthSpeedVal s) (tok : List Char) (st : SchedState)
    (h : SegInv t0 st) :
    SegInv t0 (playToken s tok st) ∧ st.time ≤ (playToken s tok st).time := by
  unfold playToken
  by_cases hsp : tok = [' ']
  · rw [if_pos hsp]
    have hgap := wordGap_pos s hw hf
    obtain ⟨h1, h2, h3⟩ := h
    refine ⟨⟨by dsimp; linarith, h2, ?_⟩, by dsimp; linarith⟩
    intro p hp
    dsimp at hp
    obtain ⟨hp1, hp2, hp3⟩ := h3 p hp
    exact ⟨hp1, hp2, by dsimp; linarith⟩
  · rw [if_neg hsp]
    rcases hl : assocLookup (tok.map Char.toLower) morseCodeMap with _ | ⟨_ | ⟨c, cs⟩⟩
    · exact ⟨h, le_refl _⟩
    · exact ⟨h, le_refl _⟩
    · have hmem := assocLookup_mem _ _ _ hl
      have hpure := morseCodeMap_codes _ hmem
      exact playCode_preserves_inv s t0 hw hf c cs
        (hpure.2 c (List.mem_cons_self c cs)) st h

/-- Folding `playToken` over any token list preserves the invariant and
never moves the cursor backward. -/
theorem foldl_playToken_inv (s : Station) (t0 : ℚ) (hw : 1 ≤ s.wpm)
    (hf : 1 ≤ farnsworthSpeedVal s) :
    ∀ (toks : List (List Char)) (st : SchedState), SegInv t0 st →
      SegInv t0 (toks.foldl (fun st2 tok => playToken s tok st2) st) ∧
      st.time ≤ (toks.foldl (fun st2 tok => playToken s tok st2) st).time := by
  intro toks
  induction toks with
  | nil => intro st h; exact ⟨h, le_refl _⟩
  | cons tok toks ih =>
    intro st h
    rw [List.foldl_cons]
    obtain ⟨hm, ht⟩ := playToken_preserves_inv s t0 hw hf tok st h
    obtain ⟨hm2, ht2⟩ := ih _ hm
    exact ⟨hm2, le_trans ht ht2⟩

/-- Claim C7: for every sentence, start time and profile with `wpm ≥ 1` and
effective Farnsworth speed `≥ 1`, the segments scheduled by one
`playSentence` call are pairwise strictly ordered and non-overlapping, each
lies at or after the start time with positive duration and ends before the
returned end time, the end time is at least the start time, and every
dot/dash iteration advances the cursor by exactly its duration plus the
strictly positive `SYMBOL_SPACE`. -/
theorem playSentence_segments_ordered (s : Station) (sentence : List Char)
    (t0 : ℚ) (hw : 1 ≤ s.wpm) (hf : 1 ≤ farnsworthSpeedVal s) :
    t0 ≤ (playSentence s sentence t0).time ∧
    List.Pairwise (fun a b => a.1 + a.2 < b.1) (playSentence s sentence t0).segs ∧
    (∀ p ∈ (playSentence s sentence t0).segs,
      t0 ≤ p.1 ∧ 0 < p.2 ∧ p.1 + p.2 < (playSentence s sentence t0).time) ∧
    0 < SYMBOL_SPACE s ∧
    ∀ (c : Char) (st : SchedState), c = '.' ∨ c = '-' →
      (playCodeStep s st c).time =
        st.time + ((if c = '-' then DASH_TIME s else DOT_TIME s) + SYMBOL_SPACE s) := by
  have hinit : SegInv t0 ⟨t0, []⟩ := ⟨le_refl _, List.Pairwise.nil, by simp⟩
  obtain ⟨⟨h1, h2, h3⟩, _⟩ :=
    foldl_playToken_inv s t0 hw hf (tokenize sentence) _ hinit
  exact ⟨h1, h2, fun p hp => h3 p hp, SYMBOL_SPACE_pos s hw,
    fun c st hc => by rw [playCodeStep_symbol s st c hc]⟩

/-- Witness for claim C7 at the plain 20 wpm station, sentence `E`, start
time `10`. -/
theorem playSentence_segments_ordered_witness :
    (10 : ℚ) ≤ (playSentence stPlain ['E'] 10).time ∧
    List.Pairwise (fun a b => a.1 + a.2 < b.1) (playSentence stPlain ['E'] 10).segs ∧
    (∀ p ∈ (playSentence stPlain ['E'] 10).segs,
      (10 : ℚ) ≤ p.1 ∧ 0 < p.2 ∧ p.1 + p.2 < (playSentence stPlain ['E'] 10).time) ∧
    0 < SYMBOL_SPACE stPlain ∧
    ∀ (c : Char) (st : SchedState), c = '.' ∨ c = '-' →
      (playCodeStep stPlain st c).time =
        st.time + ((if c = '-' then DASH_TIME stPlain else DOT_TIME stPlain)
          + SYMBOL_SPACE stPlain) :=
  playSentence_segments_ordered stPlain ['E'] 10 (by norm_num [stPlain])
    (by norm_num [farnsworthSpeedVal, stPlain])

end Morsewalker
